import Mathlib

/-!
Dining philosophers: `thinkOrEat.c`.

A shallow embedding of `src/thinkOrEat.c`.

* `main` sets up the semaphores (`room`, `forks[5]`) and creates `num_threads = argc`
  philosopher threads; `main_init` is the state it leaves behind once the threads exist.
* `philosopher` is an endless loop.  Every statement of the loop body that touches the shared
  semaphores or the thread's `struct thread_info` is one program point (`PC`); `step` runs the
  statement at the program point of one thread, so that the threads interleave statement by
  statement.  `sem_wait` on a semaphore of value `0` is not enabled (the thread is blocked).
* `int` fields wrap around at 32 bits (`wrap32`).
* The source indexes `forks` with `thread_num` without a bounds check.  Lines 23-24 define
  `room` directly behind the five forks, so `forks[5]` is read as the object that lies there,
  `room` itself; behind `room` the program has no object, and `step` has no successor for an
  index above 5.
* `Agent` carries, next to the fields of the program, a record of what the thread has done
  (`inRoom`, `held`, `ops`, `thinkLog`, `eatLog`, `cycles`).  These fields are only written,
  never read, by `step`: they are the instrumentation the properties are stated with.
-/

namespace ThinkOrEat

/-! ## Data model -/

/-- Two's-complement wrap of an integer into the range of a 32-bit C `int`. -/
def wrap32 (x : Int) : Int := (x + 2147483648) % 4294967296 - 2147483648

/-- The fields of `struct thread_info` used by the philosopher loop (lines 32-40);
`thread_id` is only a handle and is left out. -/
structure thread_info where
  thread_num : Nat
  eat : Int
  think : Int
  eatingTime : Int
  thinkingTime : Int
deriving DecidableEq

/-- Program points of the loop body of `philosopher` (lines 65-94): the statement the
thread executes next. -/
inductive PC where
  /-- line 68: `tinfo->think++` -/
  | thinkInc
  /-- lines 71-73: `time = ...; tinfo->thinkingTime += time; usleep(time)` -/
  | thinkTime
  /-- line 75: `sem_wait(&room)` -/
  | waitRoom
  /-- line 78: `sem_wait(&forks[thread_num])` -/
  | waitLeft
  /-- line 79: `sem_wait(&forks[(thread_num + 1) % 5])` -/
  | waitRight
  /-- line 82: `tinfo->eat++` -/
  | eatInc
  /-- lines 85-87: `time = ...; tinfo->eatingTime += time; usleep(time)` -/
  | eatTime
  /-- line 90: `sem_post(&forks[(thread_num + 1) % 5])` -/
  | postRight
  /-- line 91: `sem_post(&forks[thread_num])` -/
  | postLeft
  /-- line 93: `sem_post(&room)` -/
  | postRoom
deriving DecidableEq

/-- Synchronisation events of one thread, in the order it performs them. -/
inductive Op where
  | enterRoom
  | waitFork (j : Nat)
  | eating
  | postFork (j : Nat)
  | leaveRoom
deriving DecidableEq

/-- One philosopher thread: its program point, its `struct thread_info`, and the
instrumentation (`inRoom`: past `sem_wait(&room)` and not yet past `sem_post(&room)`;
`held`: fork indices waited on and not yet posted; `ops`: the synchronisation events so far;
`thinkLog`, `eatLog`: the values of `time` chosen for the think and eat sleeps, in
microseconds; `cycles`: completed loop iterations). -/
structure Agent where
  pc : PC
  tinfo : thread_info
  inRoom : Bool
  held : List Nat
  ops : List Op
  thinkLog : List Nat
  eatLog : List Nat
  cycles : Nat
deriving DecidableEq

/-- The shared semaphores (`room`, `forks`) with their current values, and the threads. -/
structure State where
  room : Nat
  forks : List Nat
  agents : List Agent
deriving DecidableEq

/-! ## `philosopher` -/

/-- Lines 71 and 85: `time = (1000 * (rand() % 24 + 25))`, for the value `r` of `rand()`. -/
def sleepTime (r : Nat) : Nat := 1000 * (r % 24 + 25)

/-- Index of the left fork, `tinfo->thread_num` (lines 78, 91). -/
def leftFork (t : thread_info) : Nat := t.thread_num

/-- Index of the right fork, `(tinfo->thread_num + 1) % 5` (lines 79, 90). -/
def rightFork (t : thread_info) : Nat := (t.thread_num + 1) % 5

/-- `sem_wait` on a semaphore value: blocked (`none`) at `0`, else decrement. -/
def sem_wait (v : Nat) : Option Nat :=
  match v with
  | 0 => none
  | v + 1 => some v

/-- `sem_post` on a semaphore value. -/
def sem_post (v : Nat) : Nat := v + 1

/-- `sem_wait(&forks[j])` on the pair (`room`, `forks`).  For `j < 5` it is the fork; the
address `&forks[5]`, one element behind the array, is the address of `room` (lines 23-24), so
for `j = 5` the wait is on `room`; there is no result when the semaphore is 0 or `j > 5`. -/
def fork_wait (room : Nat) (forks : List Nat) (j : Nat) : Option (Nat × List Nat) :=
  if j = 5 then (sem_wait room).map (fun v => (v, forks))
  else
    match forks[j]? with
    | none => none
    | some v => (sem_wait v).map (fun w => (room, forks.set j w))

/-- `sem_post(&forks[j])` on the pair (`room`, `forks`): the fork for `j < 5`, `room` for
`j = 5`, no result for `j > 5`. -/
def fork_post (room : Nat) (forks : List Nat) (j : Nat) : Option (Nat × List Nat) :=
  if j = 5 then some (sem_post room, forks)
  else
    match forks[j]? with
    | none => none
    | some v => some (room, forks.set j (sem_post v))

/-- The effect of the statement at `a.pc` on the thread itself (its `struct thread_info`,
its program point, and the instrumentation); `r` is the value `rand()` returns, used at the
two program points that call it. -/
def advance (a : Agent) (r : Nat) : Agent :=
  match a.pc with
  | .thinkInc =>
    { a with pc := .thinkTime, tinfo := { a.tinfo with think := wrap32 (a.tinfo.think + 1) } }
  | .thinkTime =>
    { a with
      pc := .waitRoom
      tinfo := { a.tinfo with
        thinkingTime := wrap32 (a.tinfo.thinkingTime + (sleepTime r : Int)) }
      thinkLog := a.thinkLog ++ [sleepTime r] }
  | .waitRoom =>
    { a with pc := .waitLeft, inRoom := true, ops := a.ops ++ [Op.enterRoom] }
  | .waitLeft =>
    { a with
      pc := .waitRight
      held := leftFork a.tinfo :: a.held
      ops := a.ops ++ [Op.waitFork (leftFork a.tinfo)] }
  | .waitRight =>
    { a with
      pc := .eatInc
      held := rightFork a.tinfo :: a.held
      ops := a.ops ++ [Op.waitFork (rightFork a.tinfo)] }
  | .eatInc =>
    { a with pc := .eatTime, tinfo := { a.tinfo with eat := wrap32 (a.tinfo.eat + 1) } }
  | .eatTime =>
    { a with
      pc := .postRight
      tinfo := { a.tinfo with
        eatingTime := wrap32 (a.tinfo.eatingTime + (sleepTime r : Int)) }
      eatLog := a.eatLog ++ [sleepTime r]
      ops := a.ops ++ [Op.eating] }
  | .postRight =>
    { a with
      pc := .postLeft
      held := a.held.erase (rightFork a.tinfo)
      ops := a.ops ++ [Op.postFork (rightFork a.tinfo)] }
  | .postLeft =>
    { a with
      pc := .postRoom
      held := a.held.erase (leftFork a.tinfo)
      ops := a.ops ++ [Op.postFork (leftFork a.tinfo)] }
  | .postRoom =>
    { a with
      pc := .thinkInc
      inRoom := false
      ops := a.ops ++ [Op.leaveRoom]
      cycles := a.cycles + 1 }

/-- The effect of the statement at `a.pc` on the semaphores; `none` when the thread is
blocked in `sem_wait` or the fork index is above 5. -/
def semStep (room : Nat) (forks : List Nat) (a : Agent) : Option (Nat × List Nat) :=
  match a.pc with
  | .waitRoom => (sem_wait room).map (fun v => (v, forks))
  | .waitLeft => fork_wait room forks (leftFork a.tinfo)
  | .waitRight => fork_wait room forks (rightFork a.tinfo)
  | .postRight => fork_post room forks (rightFork a.tinfo)
  | .postLeft => fork_post room forks (leftFork a.tinfo)
  | .postRoom => some (sem_post room, forks)
  | _ => some (room, forks)

/-- Thread `i` executes its next statement, with `r` the value of `rand()` if it calls it.
`none`: there is no thread `i`, or its next statement is not enabled. -/
def step (s : State) (i r : Nat) : Option State :=
  match s.agents[i]? with
  | none => none
  | some a =>
    match semStep s.room s.forks a with
    | none => none
    | some (room, forks) =>
      some { room := room, forks := forks, agents := s.agents.set i (advance a r) }

/-- States reachable from `s0` by interleaved steps of the threads. -/
inductive Reachable (s0 : State) : State → Prop where
  | start : Reachable s0 s0
  | next {s s1 : State} (i r : Nat) : Reachable s0 s → step s i r = some s1 → Reachable s0 s1

/-- Run a schedule: a list of pairs (thread, value of `rand()`), one step each. -/
def run (s : State) : List (Nat × Nat) → Option State
  | [] => some s
  | (i, r) :: rest =>
    match step s i r with
    | none => none
    | some s1 => run s1 rest

/-! ## `main` -/

/-- Line 23: `sem_t forks[5] = {1};` the aggregate initialiser gives the first member of
`forks[0]` the value `1` and zeroes the rest of the array; the first member is read here as
the semaphore's value. -/
def forks_static : List Nat := [1, 0, 0, 0, 0]

/-- Line 24: `sem_t room = {4};` read in the same way. -/
def room_static : Nat := 4

/-- `sem_init(&sem, 0, value)`. -/
def sem_init (_sem : Nat) (value : Nat) : Nat := value

/-- Lines 118-121: `for (int i = 1; i < 5; i++) sem_init(&forks[i], 0, 1);` -/
def init_forks (forks : List Nat) : List Nat :=
  (List.range' 1 4).foldl (fun f i => f.set i (sem_init (f.getD i 0) 1)) forks

/-- Line 124: `num_threads = argc`. -/
def num_threads (argc : Nat) : Nat := argc

/-- Lines 128 and 135: a `calloc`-zeroed `struct thread_info` with `thread_num = tnum`,
for a thread about to enter its loop. -/
def new_agent (tnum : Nat) : Agent :=
  { pc := .thinkInc
    tinfo := { thread_num := tnum, eat := 0, think := 0, eatingTime := 0, thinkingTime := 0 }
    inRoom := false
    held := []
    ops := []
    thinkLog := []
    eatLog := []
    cycles := 0 }

/-- Lines 133-138: the `pthread_create` loop, `tnum = 0 .. num_threads - 1`; the list of
threads it creates. -/
def spawn (n : Nat) : List Agent := (List.range n).map new_agent

/-- The state `main` sets up (lines 116-138): `room` at 4 (line 117), the forks, and one
thread per `tnum < num_threads`.  A thread that exists but has not run yet is in the same
state as one not created yet, so the threads are all present from the start. -/
def main_init (argc : Nat) : State :=
  { room := sem_init room_static 4
    forks := init_forks forks_static
    agents := spawn (num_threads argc) }

/-- Lines 151-152: the totals `main` prints for a thread, in milliseconds:
`eatingTime/1000` and `thinkingTime/1000` (C division truncates toward zero). -/
def reported (t : thread_info) : Int × Int :=
  (Int.tdiv t.eatingTime 1000, Int.tdiv t.thinkingTime 1000)

/-! ## Invariants -/

/-- The forks a thread holds at each program point, read off the loop body. -/
def heldAt (t : thread_info) : PC → List Nat
  | .waitRight => [leftFork t]
  | .eatInc => [rightFork t, leftFork t]
  | .eatTime => [rightFork t, leftFork t]
  | .postRight => [rightFork t, leftFork t]
  | .postLeft => [leftFork t]
  | _ => []

/-- Whether a thread at a program point is between `sem_wait(&room)` and `sem_post(&room)`. -/
def inRoomAt : PC → Bool
  | .thinkInc => false
  | .thinkTime => false
  | .waitRoom => false
  | _ => true

/-- The synchronisation events of one loop iteration, in program order (lines 75-93). -/
def iteration (t : thread_info) : List Op :=
  [Op.enterRoom, Op.waitFork (leftFork t), Op.waitFork (rightFork t), Op.eating,
   Op.postFork (rightFork t), Op.postFork (leftFork t), Op.leaveRoom]

/-- How many events of the current iteration lie behind a program point. -/
def progress : PC → Nat
  | .thinkInc => 0
  | .thinkTime => 0
  | .waitRoom => 0
  | .waitLeft => 1
  | .waitRight => 2
  | .eatInc => 3
  | .eatTime => 3
  | .postRight => 4
  | .postLeft => 5
  | .postRoom => 6

/-- The list `l` written `k` times in a row. -/
def repeatOps (k : Nat) (l : List Op) : List Op :=
  match k with
  | 0 => []
  | k + 1 => repeatOps k l ++ l

/-- Whether `think++` of the current iteration has run (1) or not (0). -/
def thinkCounted : PC → Nat
  | .thinkInc => 0
  | _ => 1

/-- Whether the think sleep of the current iteration has been added to `thinkingTime`. -/
def thinkTimed : PC → Nat
  | .thinkInc => 0
  | .thinkTime => 0
  | _ => 1

/-- Whether `eat++` of the current iteration has run (1) or not (0). -/
def eatCounted : PC → Nat
  | .eatTime => 1
  | .postRight => 1
  | .postLeft => 1
  | .postRoom => 1
  | _ => 0

/-- Whether the eat sleep of the current iteration has been added to `eatingTime`. -/
def eatTimed : PC → Nat
  | .postRight => 1
  | .postLeft => 1
  | .postRoom => 1
  | _ => 0

/-- Thread-local invariant on the synchronisation record: the thread keeps the number `main`
gave it, and what it holds and has done is determined by its program point. -/
def SyncOK (i : Nat) (a : Agent) : Prop :=
  a.tinfo.thread_num = i ∧ a.held = heldAt a.tinfo a.pc ∧ a.inRoom = inRoomAt a.pc ∧
  a.ops = repeatOps a.cycles (iteration a.tinfo) ++ (iteration a.tinfo).take (progress a.pc)

/-- Thread-local invariant on the counters of `struct thread_info`. -/
def CountOK (a : Agent) : Prop :=
  a.tinfo.think = wrap32 ((a.cycles + thinkCounted a.pc : Nat) : Int) ∧
  a.tinfo.eat = wrap32 ((a.cycles + eatCounted a.pc : Nat) : Int) ∧
  a.thinkLog.length = a.cycles + thinkTimed a.pc ∧
  a.eatLog.length = a.cycles + eatTimed a.pc ∧
  a.tinfo.thinkingTime = wrap32 ((a.thinkLog.sum : Nat) : Int) ∧
  a.tinfo.eatingTime = wrap32 ((a.eatLog.sum : Nat) : Int) ∧
  (∀ e ∈ a.thinkLog, ∃ r, e = sleepTime r) ∧ (∀ e ∈ a.eatLog, ∃ r, e = sleepTime r)

/-- Number of threads past `sem_wait(&room)` and not yet past `sem_post(&room)`. -/
def inRoomCount (s : State) : Nat := s.agents.countP (fun a => a.inRoom)

/-- Number of threads that have waited on fork `j` and not yet posted it. -/
def holders (j : Nat) (s : State) : Nat := s.agents.countP (fun a => decide (j ∈ a.held))

/-- The invariant of the whole system: the forks are five; the value of `room`, the threads
in the room and the threads that took `room` through `forks[5]` add up to 4; the value of a
fork and its holders add up to 1; and the thread-local invariants. -/
def Inv (s : State) : Prop :=
  s.forks.length = 5 ∧ s.room + inRoomCount s + holders 5 s = 4 ∧
  (∀ j v, s.forks[j]? = some v → v + holders j s = 1) ∧
  ∀ i a, s.agents[i]? = some a → SyncOK i a ∧ CountOK a

/-- The eat phase of the loop (lines 81-87): both forks taken, `eat++` and the eat sleep. -/
def eatPhase : PC → Bool
  | .eatInc => true
  | .eatTime => true
  | _ => false

/-- Two threads use a common fork. -/
def sharesFork (t u : thread_info) : Prop :=
  leftFork t = leftFork u ∨ leftFork t = rightFork u ∨ rightFork t = leftFork u ∨
  rightFork t = rightFork u

/-- 1 at the program point between `think++` and `thinkingTime += time`, else 0: the think
phase that is counted but has no duration yet. -/
def pendingThink : PC → Nat
  | .thinkTime => 1
  | _ => 0

/-- 1 at the program point between `eat++` and `eatingTime += time`, else 0. -/
def pendingEat : PC → Nat
  | .eatTime => 1
  | _ => 0

/-- Sum of the sleeps of a log in whole milliseconds. -/
def sumMs (log : List Nat) : Nat := (log.map (fun e => e / 1000)).sum

/-! ## Example runs -/

/-- Five philosophers; 0, 1, 2, 3 enter the room and take their left fork, 4 reaches
`sem_wait(&room)`. -/
def schedFour : List (Nat × Nat) :=
  [(0, 7), (0, 7), (0, 7), (0, 7), (1, 7), (1, 7), (1, 7), (1, 7), (2, 7), (2, 7), (2, 7), (2, 7),
   (3, 7), (3, 7), (3, 7), (3, 7), (4, 7), (4, 7)]

/-- The state after `schedFour`. -/
def fourInside : State := (run (main_init 5) schedFour).getD (main_init 5)

/-- Two philosophers (`argc = 2`); 1 takes both its forks, 0 enters the room. -/
def schedTwo : List (Nat × Nat) :=
  [(1, 0), (1, 0), (1, 0), (1, 0), (1, 0), (0, 0), (0, 0), (0, 0)]

/-- The state after `schedTwo`. -/
def twoInside : State := (run (main_init 2) schedTwo).getD (main_init 2)

/-- Five philosophers; philosopher 0 runs one whole iteration of its loop. -/
def schedCycle : List (Nat × Nat) :=
  [(0, 23), (0, 23), (0, 23), (0, 23), (0, 23), (0, 24), (0, 24), (0, 24), (0, 24), (0, 24)]

/-- The state after `schedCycle`. -/
def oneCycle : State := (run (main_init 5) schedCycle).getD (main_init 5)

/-- Six philosophers (`argc = 6`); philosopher 5 enters the room and executes
`sem_wait(&forks[5])`. -/
def schedSix : List (Nat × Nat) := [(5, 0), (5, 0), (5, 0), (5, 0)]

/-- The state after `schedSix`. -/
def sixInside : State := (run (main_init 6) schedSix).getD (main_init 6)

/-- Five philosophers; philosopher 0 has executed `think++` and nothing else. -/
def schedInc : List (Nat × Nat) := [(0, 0)]

/-- The state after `schedInc`. -/
def afterThinkInc : State := (run (main_init 5) schedInc).getD (main_init 5)

/-! ## Thread-local lemmas -/

theorem wrap32_add (x y : Int) : wrap32 (wrap32 x + y) = wrap32 (x + y) := by
  unfold wrap32
  omega

theorem wrap32_id (x : Int) (h0 : 0 ≤ x) (h1 : x < 2147483648) : wrap32 x = x := by
  unfold wrap32
  omega

theorem syncOK_new (i : Nat) : SyncOK i (new_agent i) := by
  simp [SyncOK, new_agent, heldAt, inRoomAt, repeatOps, progress]

theorem countOK_new (i : Nat) : CountOK (new_agent i) := by
  simp [CountOK, new_agent, thinkCounted, eatCounted, thinkTimed, eatTimed, wrap32]

theorem syncOK_advance (i r : Nat) (a : Agent) (h : SyncOK i a) : SyncOK i (advance a r) := by
  obtain ⟨pc, t, ir, held, ops, tl, el, c⟩ := a
  obtain ⟨h1, h2, h3, h4⟩ := h
  simp only at h1 h2 h3 h4
  subst h2 h3 h4
  cases pc <;>
    simp [SyncOK, advance, heldAt, inRoomAt, progress, iteration, repeatOps, h1, leftFork,
      rightFork]

theorem countOK_advance (r : Nat) (a : Agent) (h : CountOK a) : CountOK (advance a r) := by
  obtain ⟨pc, t, ir, held, ops, tl, el, c⟩ := a
  obtain ⟨h1, h2, h3, h4, h5, h6, h7, h8⟩ := h
  simp only at h1 h2 h3 h4 h5 h6 h7 h8
  cases pc <;>
    simp_all [CountOK, advance, thinkCounted, eatCounted, thinkTimed, eatTimed, wrap32_add]
  · rintro e (he | rfl)
    · exact h7 e he
    · exact ⟨r, rfl⟩
  · rintro e (he | rfl)
    · exact h8 e he
    · exact ⟨r, rfl⟩

/-! ## Lemmas on the state -/

theorem countP_set (p : Agent → Bool) (l : List Agent) (i : Nat) (a b : Agent)
    (h : l[i]? = some a) :
    (l.set i b).countP p + (if p a then 1 else 0) = l.countP p + (if p b then 1 else 0) := by
  induction l generalizing i with
  | nil => simp at h
  | cons x xs ih =>
    cases i with
    | zero =>
      simp only [List.getElem?_cons_zero, Option.some.injEq] at h
      subst h
      simp only [List.set_cons_zero, List.countP_cons]
      omega
    | succ k =>
      simp only [List.getElem?_cons_succ] at h
      have := ih k h
      simp only [List.set_cons_succ, List.countP_cons]
      omega

theorem step_some (s s1 : State) (i r : Nat) (h : step s i r = some s1) :
    ∃ a room forks, s.agents[i]? = some a ∧ semStep s.room s.forks a = some (room, forks) ∧
      s1 = { room := room, forks := forks, agents := s.agents.set i (advance a r) } := by
  unfold step at h
  cases ha : s.agents[i]? with
  | none => simp [ha] at h
  | some a =>
    cases hs : semStep s.room s.forks a with
    | none => simp [ha, hs] at h
    | some rf =>
      obtain ⟨room, forks⟩ := rf
      simp only [ha, hs, Option.some.injEq] at h
      exact ⟨a, room, forks, rfl, hs, h.symm⟩

theorem reachable_run (s0 s s1 : State) (sched : List (Nat × Nat)) (h : Reachable s0 s)
    (hr : run s sched = some s1) : Reachable s0 s1 := by
  induction sched generalizing s with
  | nil =>
    simp only [run, Option.some.injEq] at hr
    exact hr ▸ h
  | cons e rest ih =>
    obtain ⟨i, r⟩ := e
    simp only [run] at hr
    cases hs : step s i r with
    | none => simp [hs] at hr
    | some s2 =>
      simp only [hs] at hr
      exact ih s2 (Reachable.next i r h hs) hr

theorem fork_wait_some (room room1 : Nat) (forks forks1 : List Nat) (j : Nat)
    (h : fork_wait room forks j = some (room1, forks1)) :
    (j ≠ 5 ∧ room1 = room ∧ ∃ v, forks[j]? = some (v + 1) ∧ forks1 = forks.set j v) ∨
    (j = 5 ∧ room = room1 + 1 ∧ forks1 = forks) := by
  unfold fork_wait at h
  by_cases hj5 : j = 5
  · right
    simp only [hj5, if_true] at h
    cases room with
    | zero => simp [sem_wait] at h
    | succ v =>
      simp only [sem_wait, Option.map_some', Option.some.injEq, Prod.mk.injEq] at h
      exact ⟨hj5, by rw [h.1], h.2.symm⟩
  · left
    simp only [hj5, if_false] at h
    cases hj : forks[j]? with
    | none => simp [hj] at h
    | some v =>
      cases v with
      | zero => simp [hj, sem_wait] at h
      | succ w =>
        simp only [hj, sem_wait, Option.map_some', Option.some.injEq, Prod.mk.injEq] at h
        exact ⟨hj5, h.1.symm, w, rfl, h.2.symm⟩

theorem fork_post_some (room room1 : Nat) (forks forks1 : List Nat) (j : Nat)
    (h : fork_post room forks j = some (room1, forks1)) :
    (j ≠ 5 ∧ room1 = room ∧ ∃ v, forks[j]? = some v ∧ forks1 = forks.set j (v + 1)) ∨
    (j = 5 ∧ room1 = room + 1 ∧ forks1 = forks) := by
  unfold fork_post at h
  by_cases hj5 : j = 5
  · right
    simp only [hj5, if_true, sem_post, Option.some.injEq, Prod.mk.injEq] at h
    exact ⟨hj5, h.1.symm, h.2.symm⟩
  · left
    simp only [hj5, if_false] at h
    cases hj : forks[j]? with
    | none => simp [hj] at h
    | some v =>
      simp only [hj, sem_post, Option.some.injEq, Prod.mk.injEq] at h
      exact ⟨hj5, h.1.symm, v, rfl, h.2.symm⟩

theorem inRoomCount_set (s : State) (i : Nat) (a b : Agent) (room : Nat) (forks : List Nat)
    (h : s.agents[i]? = some a) :
    inRoomCount { room := room, forks := forks, agents := s.agents.set i b }
      + (if a.inRoom = true then 1 else 0)
      = inRoomCount s + (if b.inRoom = true then 1 else 0) := by
  simpa [inRoomCount] using countP_set (fun x => x.inRoom) s.agents i a b h

theorem holders_set (s : State) (i j : Nat) (a b : Agent) (room : Nat) (forks : List Nat)
    (h : s.agents[i]? = some a) :
    holders j { room := room, forks := forks, agents := s.agents.set i b }
      + (if j ∈ a.held then 1 else 0)
      = holders j s + (if j ∈ b.held then 1 else 0) := by
  simpa [holders] using countP_set (fun x => decide (j ∈ x.held)) s.agents i a b h

theorem getElem?_set_cases {α : Type} (l : List α) (i k : Nat) (b c : α)
    (hk : (l.set i b)[k]? = some c) : (k = i ∧ c = b) ∨ (k ≠ i ∧ l[k]? = some c) := by
  rw [List.getElem?_set] at hk
  by_cases hik : i = k
  · subst hik
    left
    by_cases hlt : i < l.length
    · simp only [hlt, if_true, Option.some.injEq] at hk
      exact ⟨rfl, hk.symm⟩
    · simp [hlt] at hk
  · right
    simp only [hik, if_false] at hk
    exact ⟨fun h => hik h.symm, hk⟩

theorem rightFork_lt (t : thread_info) : rightFork t < 5 := by
  unfold rightFork
  omega

theorem semStep_some (room room1 : Nat) (forks forks1 : List Nat) (a : Agent)
    (h : semStep room forks a = some (room1, forks1)) :
    (a.pc = .waitRoom ∧ room = room1 + 1 ∧ forks1 = forks) ∨
    (a.pc = .waitLeft ∧ leftFork a.tinfo ≠ 5 ∧ room1 = room ∧
      ∃ v, forks[leftFork a.tinfo]? = some (v + 1) ∧ forks1 = forks.set (leftFork a.tinfo) v) ∨
    (a.pc = .waitLeft ∧ leftFork a.tinfo = 5 ∧ room = room1 + 1 ∧ forks1 = forks) ∨
    (a.pc = .waitRight ∧ room1 = room ∧
      ∃ v, forks[rightFork a.tinfo]? = some (v + 1) ∧
        forks1 = forks.set (rightFork a.tinfo) v) ∨
    (a.pc = .postRight ∧ room1 = room ∧
      ∃ v, forks[rightFork a.tinfo]? = some v ∧
        forks1 = forks.set (rightFork a.tinfo) (v + 1)) ∨
    (a.pc = .postLeft ∧ leftFork a.tinfo ≠ 5 ∧ room1 = room ∧
      ∃ v, forks[leftFork a.tinfo]? = some v ∧
        forks1 = forks.set (leftFork a.tinfo) (v + 1)) ∨
    (a.pc = .postLeft ∧ leftFork a.tinfo = 5 ∧ room1 = room + 1 ∧ forks1 = forks) ∨
    (a.pc = .postRoom ∧ room1 = room + 1 ∧ forks1 = forks) ∨
    ((a.pc = .thinkInc ∨ a.pc = .thinkTime ∨ a.pc = .eatInc ∨ a.pc = .eatTime) ∧
      room1 = room ∧ forks1 = forks) := by
  have hR5 := rightFork_lt a.tinfo
  unfold semStep at h
  cases hpc : a.pc <;> simp only [hpc] at h
  case waitRoom =>
    cases room with
    | zero => simp [sem_wait] at h
    | succ v =>
      simp only [sem_wait, Option.map_some', Option.some.injEq, Prod.mk.injEq] at h
      simp [h.1.symm, h.2.symm]
  case waitLeft =>
    rcases fork_wait_some _ _ _ _ _ h with ⟨h5, hr, v, hv, hf⟩ | ⟨h5, hr, hf⟩
    · simp [h5, hr, hf, hv]
    · simp [h5, hr, hf]
  case waitRight =>
    rcases fork_wait_some _ _ _ _ _ h with ⟨h5, hr, v, hv, hf⟩ | ⟨h5, hr, hf⟩
    · simp [hr, hf, hv]
    · omega
  case postRight =>
    rcases fork_post_some _ _ _ _ _ h with ⟨h5, hr, v, hv, hf⟩ | ⟨h5, hr, hf⟩
    · simp [hr, hf, hv]
    · omega
  case postLeft =>
    rcases fork_post_some _ _ _ _ _ h with ⟨h5, hr, v, hv, hf⟩ | ⟨h5, hr, hf⟩
    · simp [h5, hr, hf, hv]
    · simp [h5, hr, hf]
  case postRoom =>
    simp only [sem_post, Option.some.injEq, Prod.mk.injEq] at h
    simp [h.1.symm, h.2.symm]
  all_goals
    simp only [Option.some.injEq, Prod.mk.injEq] at h
    simp [h.1.symm, h.2.symm]

/-- The program point after the statement at a program point. -/
theorem advance_pc (a : Agent) (r : Nat) :
    (advance a r).tinfo.thread_num = a.tinfo.thread_num ∧
    (a.pc = .thinkInc → (advance a r).pc = .thinkTime) ∧
    (a.pc = .thinkTime → (advance a r).pc = .waitRoom) ∧
    (a.pc = .waitRoom → (advance a r).pc = .waitLeft) ∧
    (a.pc = .waitLeft → (advance a r).pc = .waitRight) ∧
    (a.pc = .waitRight → (advance a r).pc = .eatInc) ∧
    (a.pc = .eatInc → (advance a r).pc = .eatTime) ∧
    (a.pc = .eatTime → (advance a r).pc = .postRight) ∧
    (a.pc = .postRight → (advance a r).pc = .postLeft) ∧
    (a.pc = .postLeft → (advance a r).pc = .postRoom) ∧
    (a.pc = .postRoom → (advance a r).pc = .thinkInc) := by
  unfold advance
  cases hpc : a.pc <;> simp

theorem inv_step (s s1 : State) (i r : Nat) (hI : Inv s) (h : step s i r = some s1) :
    Inv s1 := by
  obtain ⟨a, room, forks, ha, hs, rfl⟩ := step_some s s1 i r h
  obtain ⟨hlen, hroom, hforks, hloc⟩ := hI
  obtain ⟨hsync, hcnt⟩ := hloc i a ha
  have hsync1 := syncOK_advance i r a hsync
  have hcnt1 := countOK_advance r a hcnt
  have hR := inRoomCount_set s i a (advance a r) room forks ha
  have hH := fun j => holders_set s i j a (advance a r) room forks ha
  obtain ⟨hn, hheld, hin, -⟩ := hsync
  obtain ⟨hn1, hheld1, hin1, -⟩ := hsync1
  rw [hin, hin1] at hR
  simp only [hheld, hheld1] at hH
  obtain ⟨ht, p0, p1, p2, p3, p4, p5, p6, p7, p8, p9⟩ := advance_pc a r
  have hLR : rightFork a.tinfo ≠ leftFork a.tinfo := by
    unfold rightFork leftFork
    omega
  have hLR1 : rightFork (advance a r).tinfo = rightFork a.tinfo := by
    unfold rightFork
    rw [ht]
  have hLL1 : leftFork (advance a r).tinfo = leftFork a.tinfo := ht
  have hR5 : rightFork a.tinfo ≠ 5 := by
    have := rightFork_lt a.tinfo
    omega
  have hlen1 : forks.length = 5 := by
    rcases semStep_some _ _ _ _ _ hs with ⟨-, -, rfl⟩ | ⟨-, -, -, v, -, rfl⟩ | ⟨-, -, -, rfl⟩ |
      ⟨-, -, v, -, rfl⟩ | ⟨-, -, v, -, rfl⟩ | ⟨-, -, -, v, -, rfl⟩ | ⟨-, -, -, rfl⟩ |
      ⟨-, -, rfl⟩ | ⟨-, -, rfl⟩ <;>
      simpa using hlen
  have hlt5 : ∀ (f : List Nat) (j v : Nat), f.length = 5 → f[j]? = some v → j ≠ 5 := by
    intro f j v hf hj h5
    rw [List.getElem?_eq_none (by omega)] at hj
    simp at hj
  refine ⟨hlen1, ?_, ?_, ?_⟩
  · have hH5 := hH 5
    simp only []
    rcases semStep_some _ _ _ _ _ hs with ⟨hp, hr, -⟩ | ⟨hp, h5, hr, -⟩ | ⟨hp, h5, hr, -⟩ |
      ⟨hp, hr, -⟩ | ⟨hp, hr, -⟩ | ⟨hp, h5, hr, -⟩ | ⟨hp, h5, hr, -⟩ | ⟨hp, hr, -⟩ |
      ⟨hp | hp | hp | hp, hr, -⟩
    all_goals
      simp [hp, p0, p1, p2, p3, p4, p5, p6, p7, p8, p9, inRoomAt] at hR
      first
        | (simp [hp, p0, p1, p2, p3, p4, p5, p6, p7, p8, p9, heldAt, hLL1, hLR1, hR5.symm,
             Ne.symm h5] at hH5
           omega)
        | (simp [hp, p0, p1, p2, p3, p4, p5, p6, p7, p8, p9, heldAt, hLL1, hLR1, hR5.symm,
             h5] at hH5
           omega)
        | (simp [hp, p0, p1, p2, p3, p4, p5, p6, p7, p8, p9, heldAt, hLL1, hLR1, hR5.symm]
             at hH5
           omega)
  · intro j v hj
    have hHj := hH j
    have hj5 : j ≠ 5 := hlt5 _ j v hlen1 hj
    simp only [] at hj
    rcases semStep_some _ _ _ _ _ hs with ⟨hp, -, rfl⟩ | ⟨hp, -, -, w, hw, rfl⟩ |
      ⟨hp, h5, -, rfl⟩ | ⟨hp, -, w, hw, rfl⟩ | ⟨hp, -, w, hw, rfl⟩ | ⟨hp, -, -, w, hw, rfl⟩ |
      ⟨hp, h5, -, rfl⟩ | ⟨hp, -, rfl⟩ | ⟨hp | hp | hp | hp, -, rfl⟩
    all_goals first
      | (simp [hp, p0, p1, p2, p3, p4, p5, p6, p7, p8, p9, heldAt, hLL1, hLR1] at hHj
         have := hforks j v hj
         omega)
      | (simp [hp, p0, p1, p2, p3, p4, p5, p6, p7, p8, p9, heldAt, hLL1, hLR1, h5, hj5]
           at hHj
         have := hforks j v hj
         omega)
      | (have h3 := hforks _ _ hw
         rcases getElem?_set_cases _ _ _ _ _ hj with ⟨rfl, rfl⟩ | ⟨hne, hj1⟩
         · simp [hp, p0, p1, p2, p3, p4, p5, p6, p7, p8, p9, heldAt, hLL1, hLR1, hLR, hLR.symm]
             at hHj
           omega
         · have h4 := hforks j v hj1
           simp [hp, p0, p1, p2, p3, p4, p5, p6, p7, p8, p9, heldAt, hLL1, hLR1, hLR, hLR.symm,
             hne] at hHj
           omega)
  · intro k c hk
    rcases getElem?_set_cases s.agents i k (advance a r) c hk with ⟨rfl, rfl⟩ | ⟨-, hc⟩
    · exact ⟨syncOK_advance k r a (hloc k a ha).1, hcnt1⟩
    · exact hloc k c hc

theorem spawn_getElem? (n i : Nat) (a : Agent) (h : (spawn n)[i]? = some a) :
    i < n ∧ a = new_agent i := by
  unfold spawn at h
  rw [List.getElem?_map] at h
  by_cases hi : i < n
  · rw [List.getElem?_range hi] at h
    simp only [Option.map_some', Option.some.injEq] at h
    exact ⟨hi, h.symm⟩
  · rw [List.getElem?_eq_none (by simpa using hi)] at h
    simp at h

theorem spawn_countP (n : Nat) (p : Agent → Bool) (h : ∀ k, p (new_agent k) = false) :
    (spawn n).countP p = 0 := by
  rw [List.countP_eq_zero]
  intro a ha
  unfold spawn at ha
  obtain ⟨k, -, rfl⟩ := List.mem_map.mp ha
  simp [h k]

theorem init_forks_static : init_forks forks_static = [1, 1, 1, 1, 1] := by
  decide

theorem main_init_forks (n : Nat) : (main_init n).forks = [1, 1, 1, 1, 1] :=
  init_forks_static

theorem inv_init (n : Nat) : Inv (main_init n) := by
  refine ⟨by rw [main_init_forks]; rfl, ?_, ?_, ?_⟩
  · have h1 : inRoomCount (main_init n) = 0 := spawn_countP _ _ (fun k => rfl)
    have h2 : holders 5 (main_init n) = 0 := spawn_countP _ _ (fun k => by simp [new_agent])
    rw [h1, h2]
    rfl
  · intro j v hj
    have : holders j (main_init n) = 0 :=
      spawn_countP _ _ (fun k => by simp [new_agent])
    rw [this, main_init_forks] at *
    match j, hj with
    | 0, hj => simpa using hj.symm
    | 1, hj => simpa using hj.symm
    | 2, hj => simpa using hj.symm
    | 3, hj => simpa using hj.symm
    | 4, hj => simpa using hj.symm
    | k + 5, hj => simp at hj
  · intro i a ha
    obtain ⟨-, rfl⟩ := spawn_getElem? _ i a ha
    exact ⟨syncOK_new i, countOK_new i⟩

theorem inv_reachable (n : Nat) (s : State) (h : Reachable (main_init n) s) : Inv s := by
  induction h with
  | start => exact inv_init n
  | next i r _ hs ih => exact inv_step _ _ i r ih hs

/-! ## Blocked threads -/

theorem reachable_length (n : Nat) (s : State) (h : Reachable (main_init n) s) :
    s.agents.length = n := by
  induction h with
  | start => simp [main_init, spawn, num_threads]
  | next i r _ hs ih =>
    obtain ⟨a, room, forks, -, -, rfl⟩ := step_some _ _ i r hs
    simpa using ih

theorem fork_wait_none (room : Nat) (forks : List Nat) (j : Nat) (hj : j < forks.length)
    (h5 : j ≠ 5) (h : fork_wait room forks j = none) : forks[j]? = some 0 := by
  unfold fork_wait at h
  simp only [h5, if_false] at h
  rw [List.getElem?_eq_getElem hj] at h ⊢
  cases hv : forks[j] with
  | zero => rfl
  | succ w => simp [hv, sem_wait] at h

theorem fork_post_ne_none (room : Nat) (forks : List Nat) (j : Nat) (hj : j < forks.length)
    (h5 : j ≠ 5) : fork_post room forks j ≠ none := by
  unfold fork_post
  simp only [h5, if_false]
  rw [List.getElem?_eq_getElem hj]
  simp

theorem blocked_cases (s : State) (hI : Inv s) (m r : Nat) (a : Agent)
    (ha : s.agents[m]? = some a) (hm : m < 5) (hb : step s m r = none) :
    (a.pc = .waitRoom ∧ s.room = 0) ∨ (a.pc = .waitLeft ∧ s.forks[m]? = some 0) ∨
    (a.pc = .waitRight ∧ s.forks[(m + 1) % 5]? = some 0) := by
  obtain ⟨hlen, -, -, hloc⟩ := hI
  obtain ⟨⟨hn, -⟩, -⟩ := hloc m a ha
  have hsem : semStep s.room s.forks a = none := by
    unfold step at hb
    simp only [ha] at hb
    cases hs : semStep s.room s.forks a with
    | none => rfl
    | some rf => simp [hs] at hb
  have hL : leftFork a.tinfo < s.forks.length := by
    unfold leftFork
    omega
  have hR : rightFork a.tinfo < s.forks.length := by
    unfold rightFork
    omega
  have hL1 : leftFork a.tinfo = m := hn
  have hR1 : rightFork a.tinfo = (m + 1) % 5 := by
    unfold rightFork
    rw [hn]
  unfold semStep at hsem
  cases hpc : a.pc <;> simp only [hpc, Option.map_eq_none'] at hsem <;>
    simp only [reduceCtorEq, false_and, true_and, false_or, or_false]
  case waitRoom =>
    cases hroom : s.room with
    | zero => rfl
    | succ v => simp [hroom, sem_wait] at hsem
  case waitLeft =>
    rw [← hL1]
    exact fork_wait_none _ _ _ hL (by omega) hsem
  case waitRight =>
    rw [← hR1]
    exact fork_wait_none _ _ _ hR (by omega) hsem
  case postRight => exact fork_post_ne_none _ _ _ hR (by omega) hsem
  case postLeft => exact fork_post_ne_none _ _ _ hL (by omega) hsem
  all_goals simp at hsem

theorem agent_exists (s : State) (m : Nat) (hm : m < s.agents.length) :
    ∃ a, s.agents[m]? = some a :=
  ⟨s.agents[m], List.getElem?_eq_getElem hm⟩

/-- When every thread is blocked, a fork of value 0 is held by its left-hand user, who is
waiting for its right fork. -/
theorem taken_fork_owner (s : State) (hI : Inv s) (hlen : s.agents.length = 5)
    (hb : ∀ m, m < 5 → step s m 0 = none) (j : Nat) (hf : s.forks[j]? = some 0) :
    ∃ a, s.agents[j]? = some a ∧ a.pc = .waitRight := by
  have hI1 := hI
  obtain ⟨-, -, hforks, hloc⟩ := hI
  have hh : 0 < holders j s := by
    have := hforks j 0 hf
    omega
  unfold holders at hh
  obtain ⟨a, hmem, hja⟩ := List.countP_pos_iff.mp hh
  obtain ⟨m, hma⟩ := List.mem_iff_getElem?.mp hmem
  have hm : m < 5 := by
    by_contra hge
    rw [List.getElem?_eq_none (by omega)] at hma
    simp at hma
  obtain ⟨⟨hn, hheld, -⟩, -⟩ := hloc m a hma
  simp only [decide_eq_true_eq, hheld] at hja
  rcases blocked_cases s hI1 m 0 a hma hm (hb m hm) with ⟨hp, -⟩ | ⟨hp, -⟩ | ⟨hp, -⟩
  · simp [hp, heldAt] at hja
  · simp [hp, heldAt] at hja
  · simp only [hp, heldAt, leftFork, hn, List.mem_singleton] at hja
    subst hja
    exact ⟨a, hma, hp⟩

/-- With at most five threads no thread addresses `forks[5]`. -/
theorem holders_five_zero (s : State) (hI : Inv s) (hlen : s.agents.length ≤ 5) :
    holders 5 s = 0 := by
  obtain ⟨-, -, -, hloc⟩ := hI
  unfold holders
  rw [List.countP_eq_zero]
  intro b hmem
  obtain ⟨k, hkb⟩ := List.mem_iff_getElem?.mp hmem
  have hk : k < 5 := by
    by_contra hge
    rw [List.getElem?_eq_none (by omega)] at hkb
    simp at hkb
  obtain ⟨⟨hn, hheld, -⟩, -⟩ := hloc k b hkb
  have hL : leftFork b.tinfo ≠ 5 := by
    unfold leftFork
    omega
  have hR : rightFork b.tinfo ≠ 5 := by
    have := rightFork_lt b.tinfo
    omega
  rw [hheld]
  cases hp : b.pc <;> simp [heldAt, hL.symm, hR.symm]

theorem not_all_blocked (s : State) (hI : Inv s) (hlen : s.agents.length = 5) :
    ¬ ∀ m, m < 5 → step s m 0 = none := by
  intro hb
  have hI1 := hI
  have h5 := holders_five_zero s hI (by omega)
  obtain ⟨-, hroom, -, hloc⟩ := hI
  have hcase : ∀ m a, s.agents[m]? = some a →
      (a.pc = .waitRoom ∧ s.room = 0) ∨ (a.pc = .waitRight ∧ s.forks[(m + 1) % 5]? = some 0) := by
    intro m a hma
    have hm : m < 5 := by
      by_contra hge
      rw [List.getElem?_eq_none (by omega)] at hma
      simp at hma
    rcases blocked_cases s hI1 m 0 a hma hm (hb m hm) with h | ⟨hp, hf⟩ | h
    · exact Or.inl h
    · obtain ⟨b, hmb, hpb⟩ := taken_fork_owner s hI1 hlen hb m hf
      rw [hma] at hmb
      cases hmb
      rw [hp] at hpb
      cases hpb
    · exact Or.inr h
  by_cases hex : ∃ (m : Nat) (a : Agent), s.agents[m]? = some a ∧ a.pc = PC.waitRight
  · obtain ⟨m, a, hma, hp⟩ := hex
    have hchain : ∀ d, ∃ b, s.agents[(m + d) % 5]? = some b ∧ b.pc = .waitRight := by
      intro d
      induction d with
      | zero =>
        have hm : m < 5 := by
          by_contra hge
          rw [List.getElem?_eq_none (by omega)] at hma
          simp at hma
        rw [Nat.add_zero, Nat.mod_eq_of_lt hm]
        exact ⟨a, hma, hp⟩
      | succ d ih =>
        obtain ⟨b, hb1, hb2⟩ := ih
        rcases hcase _ b hb1 with ⟨h1, -⟩ | ⟨-, hf⟩
        · rw [hb2] at h1
          cases h1
        · have := taken_fork_owner s hI1 hlen hb _ hf
          rwa [show ((m + d) % 5 + 1) % 5 = (m + (d + 1)) % 5 by omega] at this
    have hall : ∀ b ∈ s.agents, b.inRoom = true := by
      intro b hmem
      obtain ⟨k, hkb⟩ := List.mem_iff_getElem?.mp hmem
      have hk : k < 5 := by
        by_contra hge
        rw [List.getElem?_eq_none (by omega)] at hkb
        simp at hkb
      obtain ⟨c, hc1, hc2⟩ := hchain (k + 5 - m % 5)
      rw [show (m + (k + 5 - m % 5)) % 5 = k by omega, hkb] at hc1
      cases hc1
      obtain ⟨⟨-, -, hin, -⟩, -⟩ := hloc k b hkb
      rw [hin, hc2]
      rfl
    have hcount : inRoomCount s = s.agents.length := List.countP_eq_length.mpr hall
    omega
  · have hall : ∀ b ∈ s.agents, ¬ (b.inRoom = true) := by
      intro b hmem
      obtain ⟨k, hkb⟩ := List.mem_iff_getElem?.mp hmem
      rcases hcase k b hkb with ⟨hp, -⟩ | ⟨hp, -⟩
      · obtain ⟨⟨-, -, hin, -⟩, -⟩ := hloc k b hkb
        rw [hin, hp]
        simp [inRoomAt]
      · exact absurd ⟨k, b, hkb, hp⟩ hex
    have hcount : inRoomCount s = 0 := List.countP_eq_zero.mpr hall
    obtain ⟨a0, ha0⟩ := agent_exists s 0 (by omega)
    rcases hcase 0 a0 ha0 with ⟨-, hr⟩ | ⟨hp, -⟩
    · omega
    · exact absurd ⟨0, a0, ha0, hp⟩ hex

/-! ## The example runs are runs -/

theorem fourInside_reachable : Reachable (main_init 5) fourInside :=
  reachable_run _ _ _ schedFour Reachable.start (by decide)

theorem twoInside_reachable : Reachable (main_init 2) twoInside :=
  reachable_run _ _ _ schedTwo Reachable.start (by decide)

theorem oneCycle_reachable : Reachable (main_init 5) oneCycle :=
  reachable_run _ _ _ schedCycle Reachable.start (by decide)

theorem sixInside_reachable : Reachable (main_init 6) sixInside :=
  reachable_run _ _ _ schedSix Reachable.start (by decide)

theorem afterThinkInc_reachable : Reachable (main_init 5) afterThinkInc :=
  reachable_run _ _ _ schedInc Reachable.start (by decide)

/-! ## Deadlock freedom, admission, mutual exclusion -/

theorem step_isSome_rand (s : State) (i r r1 : Nat) :
    (step s i r).isSome = (step s i r1).isSome := by
  unfold step
  cases s.agents[i]? with
  | none => rfl
  | some a =>
    cases hs : semStep s.room s.forks a with
    | none => simp [hs]
    | some rf => simp [hs]

theorem countP_two (p : Agent → Bool) (l : List Agent) (i k : Nat) (a b : Agent)
    (hi : l[i]? = some a) (hk : l[k]? = some b) (hik : i ≠ k) (pa : p a = true)
    (pb : p b = true) : 2 ≤ l.countP p := by
  induction l generalizing i k with
  | nil => simp at hi
  | cons x xs ih =>
    rw [List.countP_cons]
    cases i with
    | zero =>
      cases k with
      | zero => exact absurd rfl hik
      | succ k1 =>
        simp only [List.getElem?_cons_zero, Option.some.injEq] at hi
        simp only [List.getElem?_cons_succ] at hk
        have : 0 < xs.countP p := List.countP_pos_iff.mpr ⟨b, List.mem_iff_getElem?.mpr ⟨k1, hk⟩, pb⟩
        simp only [hi, pa, if_true]
        omega
    | succ i1 =>
      cases k with
      | zero =>
        simp only [List.getElem?_cons_zero, Option.some.injEq] at hk
        simp only [List.getElem?_cons_succ] at hi
        have : 0 < xs.countP p := List.countP_pos_iff.mpr ⟨a, List.mem_iff_getElem?.mpr ⟨i1, hi⟩, pa⟩
        simp only [hk, pb, if_true]
        omega
      | succ k1 =>
        simp only [List.getElem?_cons_succ] at hi hk
        have := ih i1 k1 hi hk (fun h => hik (by rw [h]))
        omega

/-- C1: deadlock freedom for five philosophers.  `main` with five threads starts from room
value 4, five forks of value 1 and five threads; in every state reachable from there some
thread among the five can execute its next statement, whatever `rand()` returns, so in no
reachable state are all five threads blocked in a `sem_wait`. -/
theorem deadlock_freedom (s : State) (h : Reachable (main_init 5) s) :
    ((main_init 5).room = 4 ∧ (main_init 5).forks = [1, 1, 1, 1, 1] ∧
      (main_init 5).agents.length = 5) ∧
    (∃ i, i < 5 ∧ ∀ r, (step s i r).isSome = true) ∧
    ¬ (∀ i, i < 5 → step s i 0 = none) := by
  have hI := inv_reachable 5 s h
  have hlen := reachable_length 5 s h
  have hnb := not_all_blocked s hI hlen
  refine ⟨⟨rfl, main_init_forks 5, reachable_length 5 _ Reachable.start⟩, ?_, hnb⟩
  by_contra hno
  apply hnb
  intro i hi
  cases hs : step s i 0 with
  | none => rfl
  | some s1 =>
    exfalso
    apply hno
    refine ⟨i, hi, fun r => ?_⟩
    rw [step_isSome_rand s i r 0, hs]
    rfl

/-- Witness for C1: the state in which philosophers 0-3 each hold their left fork and
philosopher 4 waits for the room. -/
theorem deadlock_freedom_witness :
    Reachable (main_init 5) fourInside ∧
    (∃ i, i < 5 ∧ ∀ r, (step fourInside i r).isSome = true) ∧
    ¬ (∀ i, i < 5 → step fourInside i 0 = none) :=
  ⟨fourInside_reachable, (deadlock_freedom fourInside fourInside_reachable).2⟩

/-- Admission invariant for at most five threads: the room semaphore starts at 4, and in
every reachable state the number of threads between `sem_wait(&room)` and `sem_post(&room)`
is at most 4 and adds up with the value of the room semaphore to 4. -/
theorem admission_upto_five (n : Nat) (hn : n ≤ 5) (s : State)
    (h : Reachable (main_init n) s) :
    (main_init n).room = 4 ∧ inRoomCount s ≤ 4 ∧ inRoomCount s + s.room = 4 := by
  have hI := inv_reachable n s h
  have hlen := reachable_length n s h
  have h5 := holders_five_zero s hI (by omega)
  obtain ⟨-, hroom, -, -⟩ := hI
  refine ⟨rfl, ?_, ?_⟩ <;> omega

/-- Four of five philosophers are in the room and its value is 0. -/
theorem admission_upto_five_witness :
    (5 ≤ 5 ∧ Reachable (main_init 5) fourInside) ∧ inRoomCount fourInside = 4 ∧
    fourInside.room = 0 ∧
    ((main_init 5).room = 4 ∧ inRoomCount fourInside ≤ 4 ∧
      inRoomCount fourInside + fourInside.room = 4) :=
  ⟨⟨by decide, fourInside_reachable⟩, by decide, by decide,
    admission_upto_five 5 (by decide) fourInside fourInside_reachable⟩

/-- C2 fails in the code for six threads (`argc = 6`): thread 5 passes `sem_wait(&room)` and
then executes `sem_wait(&forks[5])`, whose index lies outside `forks[0..4]` and whose address
is that of `room`; `room` is decremented a second time, so one thread is in the room, the
value of `room` is 2, and the two add up to 3, not to the capacity 4. -/
theorem admission_broken_at_six :
    (main_init 6).agents.length = 6 ∧ (main_init 6).room = 4 ∧
    (main_init 6).forks.length = 5 ∧
    Reachable (main_init 6) sixInside ∧
    (sixInside.agents.map (fun a => (a.pc, leftFork a.tinfo, a.inRoom, a.ops)))[5]? =
      some (PC.waitRight, 5, true, [Op.enterRoom, Op.waitFork 5]) ∧
    inRoomCount sixInside = 1 ∧ sixInside.room = 2 ∧
    inRoomCount sixInside + sixInside.room ≠ 4 :=
  ⟨by decide, by decide, by decide, sixInside_reachable, by decide, by decide, by decide,
    by decide⟩

/-- C3: mutual exclusion.  With at most five threads (indices in `[0,5)`) every fork starts at
value 1, and in every reachable state each fork `j < 5` has at most one holder and its
semaphore value is 1 minus the number of holders; a thread in its eat phase holds both its
forks, and two different threads that share a fork are never both in their eat phase. -/
theorem mutual_exclusion (n : Nat) (hn : n ≤ 5) (s : State) (h : Reachable (main_init n) s) :
    (main_init n).forks = [1, 1, 1, 1, 1] ∧
    (∀ j, j < 5 → holders j s ≤ 1 ∧ s.forks[j]? = some (1 - holders j s)) ∧
    (∀ (i : Nat) (a : Agent), s.agents[i]? = some a → eatPhase a.pc = true →
      leftFork a.tinfo ∈ a.held ∧ rightFork a.tinfo ∈ a.held) ∧
    (∀ (i k : Nat) (a b : Agent), s.agents[i]? = some a → s.agents[k]? = some b → i ≠ k →
      sharesFork a.tinfo b.tinfo → ¬ (eatPhase a.pc = true ∧ eatPhase b.pc = true)) := by
  obtain ⟨hlen, -, hforks, hloc⟩ := inv_reachable n s h
  have hboth : ∀ (i : Nat) (a : Agent), s.agents[i]? = some a → eatPhase a.pc = true →
      leftFork a.tinfo ∈ a.held ∧ rightFork a.tinfo ∈ a.held := by
    intro i a ha he
    obtain ⟨⟨-, hheld, -⟩, -⟩ := hloc i a ha
    rw [hheld]
    cases hp : a.pc <;> simp [hp, eatPhase] at he <;> simp [heldAt]
  refine ⟨main_init_forks n, ?_, hboth, ?_⟩
  · intro j hj
    have hv := hforks j s.forks[j] (List.getElem?_eq_getElem (by omega))
    refine ⟨by omega, ?_⟩
    rw [List.getElem?_eq_getElem (by omega)]
    congr 1
    omega
  · rintro i k a b ha hb hik hsh ⟨hea, heb⟩
    obtain ⟨hal, har⟩ := hboth i a ha hea
    obtain ⟨hbl, hbr⟩ := hboth k b hb heb
    obtain ⟨⟨hna, -⟩, -⟩ := hloc i a ha
    have hi5 : i < 5 := by
      have hi : i < s.agents.length := by
        by_contra hge
        rw [List.getElem?_eq_none (by omega)] at ha
        simp at ha
      have := reachable_length n s h
      omega
    have key : ∀ j, j < 5 → j ∈ a.held → j ∈ b.held → False := by
      intro j hj h1 h2
      have h2le : 2 ≤ holders j s :=
        countP_two _ s.agents i k a b ha hb hik (by simpa using h1) (by simpa using h2)
      have hv := hforks j s.forks[j] (List.getElem?_eq_getElem (by omega))
      omega
    have hL : leftFork a.tinfo < 5 := by
      unfold leftFork
      omega
    have hR : rightFork a.tinfo < 5 := by
      unfold rightFork
      omega
    rcases hsh with h1 | h1 | h1 | h1
    · exact key _ hL hal (h1 ▸ hbl)
    · exact key _ hL hal (h1 ▸ hbr)
    · exact key _ hR har (h1 ▸ hbl)
    · exact key _ hR har (h1 ▸ hbr)

/-- Witness for C3: two philosophers, philosopher 1 in its eat phase with forks 1 and 2. -/
theorem mutual_exclusion_witness :
    (2 ≤ 5 ∧ Reachable (main_init 2) twoInside) ∧ holders 1 twoInside = 1 ∧
    ((main_init 2).forks = [1, 1, 1, 1, 1] ∧
    (∀ j, j < 5 → holders j twoInside ≤ 1 ∧
      twoInside.forks[j]? = some (1 - holders j twoInside)) ∧
    (∀ (i : Nat) (a : Agent), twoInside.agents[i]? = some a → eatPhase a.pc = true →
      leftFork a.tinfo ∈ a.held ∧ rightFork a.tinfo ∈ a.held) ∧
    (∀ (i k : Nat) (a b : Agent), twoInside.agents[i]? = some a →
      twoInside.agents[k]? = some b → i ≠ k →
      sharesFork a.tinfo b.tinfo → ¬ (eatPhase a.pc = true ∧ eatPhase b.pc = true))) :=
  ⟨⟨by decide, twoInside_reachable⟩, by decide,
    mutual_exclusion 2 (by decide) twoInside twoInside_reachable⟩

/-! ## What `main` sets up -/

/-- C4, as stated, fails for two threads: the room semaphore starts at 4, not at `2 - 1`,
and there is a reachable state with both threads between `sem_wait(&room)` and
`sem_post(&room)`. -/
theorem gate_capacity_counterexample :
    (main_init 2).agents.length = 2 ∧ (main_init 2).room = 4 ∧ (main_init 2).room ≠ 2 - 1 ∧
    Reachable (main_init 2) twoInside ∧ inRoomCount twoInside = 2 ∧
    ¬ (inRoomCount twoInside ≤ 2 - 1) :=
  ⟨by decide, by decide, by decide, twoInside_reachable, by decide, by decide⟩

/-- C4, amended: for every thread count `n` the room semaphore is set to the constant 4, which
is `n - 1` only for `n = 5`; the number of threads past the gate never exceeds 4 (nor `n`). -/
theorem gate_capacity_fixed (n : Nat) (s : State) (h : Reachable (main_init n) s) :
    (main_init n).agents.length = n ∧ (main_init n).room = 4 ∧
    ((main_init n).room = n - 1 ↔ n = 5) ∧ inRoomCount s ≤ min n 4 := by
  obtain ⟨-, hroom, -, -⟩ := inv_reachable n s h
  have hlen := reachable_length n s h
  have hle : inRoomCount s ≤ s.agents.length := List.countP_le_length _
  have hr : (main_init n).room = 4 := rfl
  refine ⟨reachable_length n _ Reachable.start, hr, ?_, ?_⟩
  · rw [hr]
    omega
  · rw [Nat.le_min]
    omega

/-- Witness for the amended C4: two threads, both past the gate. -/
theorem gate_capacity_fixed_witness :
    Reachable (main_init 2) twoInside ∧
    ((main_init 2).agents.length = 2 ∧ (main_init 2).room = 4 ∧
    ((main_init 2).room = 2 - 1 ↔ 2 = 5) ∧ inRoomCount twoInside ≤ min 2 4) :=
  ⟨twoInside_reachable, gate_capacity_fixed 2 twoInside twoInside_reachable⟩

/-- C5, as stated, fails for two threads: thread 1 waits on fork 1 and on fork 2, and 2 is
neither `(1 + 1) % 2` nor inside `0..1`. -/
theorem ring_addressing_counterexample :
    Reachable (main_init 2) twoInside ∧
    (twoInside.agents.map (fun a => a.ops))[1]? =
      some [Op.enterRoom, Op.waitFork 1, Op.waitFork 2] ∧
    (twoInside.agents.map (fun a => rightFork a.tinfo))[1]? = some 2 ∧
    2 ≠ (1 + 1) % 2 ∧ ¬ (2 < 2) :=
  ⟨twoInside_reachable, by decide, by decide, by decide, by decide⟩

theorem mem_repeatOps (k : Nat) (l : List Op) (x : Op) (h : x ∈ repeatOps k l) : x ∈ l := by
  induction k with
  | zero => simp [repeatOps] at h
  | succ k ih =>
    simp only [repeatOps, List.mem_append] at h
    rcases h with h | h
    · exact ih h
    · exact h

/-- C5, amended: for every thread count `n` and thread index `i < n` with `i < 5`, the forks
thread `i` waits on and posts are exactly `i` (left) and `(i + 1) % 5` (right), both inside
`0..4`: the ring has the constant size 5, so the right fork of thread 4 is fork 0, and it is
the ring of the thread count when `n = 5`. -/
theorem ring_addressing_mod5 (n : Nat) (s : State) (h : Reachable (main_init n) s) (i : Nat)
    (a : Agent) (ha : s.agents[i]? = some a) (hi : i < 5) :
    i < n ∧ leftFork a.tinfo = i ∧ rightFork a.tinfo = (i + 1) % 5 ∧
    leftFork a.tinfo < 5 ∧ rightFork a.tinfo < 5 ∧
    (i = 4 → rightFork a.tinfo = 0) ∧ (n = 5 → rightFork a.tinfo = (i + 1) % n) ∧
    (∀ j, (Op.waitFork j ∈ a.ops ∨ Op.postFork j ∈ a.ops) → j = i ∨ j = (i + 1) % 5) := by
  obtain ⟨-, -, -, hloc⟩ := inv_reachable n s h
  obtain ⟨⟨hn, -, -, hops⟩, -⟩ := hloc i a ha
  have hlen := reachable_length n s h
  have hin : i < n := by
    by_contra hge
    rw [List.getElem?_eq_none (by omega)] at ha
    simp at ha
  have hmem : ∀ x, x ∈ a.ops → x ∈ iteration a.tinfo := by
    intro x hx
    rw [hops, List.mem_append] at hx
    rcases hx with hx | hx
    · exact mem_repeatOps _ _ _ hx
    · exact List.mem_of_mem_take hx
  have hL : leftFork a.tinfo = i := hn
  have hR : rightFork a.tinfo = (i + 1) % 5 := by
    unfold rightFork
    rw [hn]
  refine ⟨hin, hL, hR, by omega, by omega, ?_, ?_, ?_⟩
  · intro h4
    rw [hR, h4]
  · intro h5
    rw [hR, h5]
  · rintro j (hj | hj) <;> have := hmem _ hj <;>
      simp only [iteration, hL, hR, List.mem_cons, Op.waitFork.injEq, Op.postFork.injEq,
        reduceCtorEq, List.mem_singleton, false_or, or_false, List.not_mem_nil] at this <;>
      omega

/-- Witness for the amended C5: thread 1 of two threads, which has waited on forks 1
and 2. -/
theorem ring_addressing_mod5_witness :
    (Reachable (main_init 2) twoInside ∧ (1 : Nat) < 5) ∧
    ∃ a, twoInside.agents[1]? = some a ∧
    ((1 : Nat) < 2 ∧ leftFork a.tinfo = 1 ∧ rightFork a.tinfo = (1 + 1) % 5 ∧
    leftFork a.tinfo < 5 ∧ rightFork a.tinfo < 5 ∧
    ((1 : Nat) = 4 → rightFork a.tinfo = 0) ∧ (2 = 5 → rightFork a.tinfo = (1 + 1) % 2) ∧
    (∀ j, (Op.waitFork j ∈ a.ops ∨ Op.postFork j ∈ a.ops) → j = 1 ∨ j = (1 + 1) % 5)) :=
  ⟨⟨twoInside_reachable, by decide⟩, twoInside.agents[1]?.get (by decide), by simp,
    ring_addressing_mod5 2 twoInside twoInside_reachable 1 _ (by simp) (by decide)⟩

/-! ## Protocol order, thread creation, sleep range -/

/-- C6: protocol order.  In every reachable state, for every thread index `i`, the
synchronisation events of the thread so far are its completed iterations, each being enter
the room, wait left fork `i`, wait right fork, eat, post right fork, post left fork `i`,
leave the room, followed by the first events of the same sequence up to its program point.
Hence it holds a fork only while in the room, holds the right fork only while holding the
left, and at the two `sem_wait` on a fork it does not hold that fork. -/
theorem protocol_order (n : Nat) (s : State) (h : Reachable (main_init n) s) (i : Nat)
    (a : Agent) (ha : s.agents[i]? = some a) :
    a.ops =
      repeatOps a.cycles
          [Op.enterRoom, Op.waitFork i, Op.waitFork (rightFork a.tinfo), Op.eating,
           Op.postFork (rightFork a.tinfo), Op.postFork i, Op.leaveRoom]
        ++ List.take (progress a.pc)
          [Op.enterRoom, Op.waitFork i, Op.waitFork (rightFork a.tinfo), Op.eating,
           Op.postFork (rightFork a.tinfo), Op.postFork i, Op.leaveRoom] ∧
    leftFork a.tinfo = i ∧
    (a.held ≠ [] → a.inRoom = true) ∧
    (rightFork a.tinfo ∈ a.held → leftFork a.tinfo ∈ a.held) ∧
    (a.pc = PC.waitLeft → leftFork a.tinfo ∉ a.held) ∧
    (a.pc = PC.waitRight → rightFork a.tinfo ∉ a.held) ∧
    a.held.Nodup := by
  obtain ⟨-, -, -, hloc⟩ := inv_reachable n s h
  obtain ⟨⟨hn, hheld, hin, hops⟩, -⟩ := hloc i a ha
  have hL : leftFork a.tinfo = i := hn
  have hLR : rightFork a.tinfo ≠ leftFork a.tinfo := by
    unfold rightFork leftFork
    omega
  refine ⟨?_, hL, ?_, ?_, ?_, ?_, ?_⟩
  · rw [hops, iteration, hL]
  all_goals
    simp only [hheld, hin]
    cases hp : a.pc <;> simp [heldAt, inRoomAt, hLR, hLR.symm]

/-- Witness for C6: philosopher 0 after one whole iteration of its loop. -/
theorem protocol_order_witness :
    Reachable (main_init 5) oneCycle ∧
    ∃ a, oneCycle.agents[0]? = some a ∧
    a.ops = [Op.enterRoom, Op.waitFork 0, Op.waitFork 1, Op.eating, Op.postFork 1,
      Op.postFork 0, Op.leaveRoom] ∧
    (a.ops =
      repeatOps a.cycles
          [Op.enterRoom, Op.waitFork 0, Op.waitFork (rightFork a.tinfo), Op.eating,
           Op.postFork (rightFork a.tinfo), Op.postFork 0, Op.leaveRoom]
        ++ List.take (progress a.pc)
          [Op.enterRoom, Op.waitFork 0, Op.waitFork (rightFork a.tinfo), Op.eating,
           Op.postFork (rightFork a.tinfo), Op.postFork 0, Op.leaveRoom] ∧
    leftFork a.tinfo = 0 ∧
    (a.held ≠ [] → a.inRoom = true) ∧
    (rightFork a.tinfo ∈ a.held → leftFork a.tinfo ∈ a.held) ∧
    (a.pc = PC.waitLeft → leftFork a.tinfo ∉ a.held) ∧
    (a.pc = PC.waitRight → rightFork a.tinfo ∉ a.held) ∧
    a.held.Nodup) :=
  ⟨oneCycle_reachable, oneCycle.agents[0]?.get (by decide), by simp, by decide,
    protocol_order 5 oneCycle oneCycle_reachable 0 _ (by simp)⟩

/-- C7, as stated, fails for `argc = 1` (a run without command-line arguments): `main`
creates one philosopher thread, number 0, which can run. -/
theorem configuration_error_counterexample :
    num_threads 1 < 2 ∧ (main_init 1).agents.map (fun a => a.tinfo.thread_num) = [0] ∧
    (main_init 1).agents ≠ [] ∧ (step (main_init 1) 0 0).isSome = true :=
  ⟨by decide, by decide, by decide, by decide⟩

/-- C7, amended: `main` checks nothing about the thread count; for every `argc` it calls
`pthread_create` once for each `tnum = 0 .. argc - 1`, so every count other than 0 creates
threads, and each created thread can start running. -/
theorem spawn_every_count (argc : Nat) :
    (main_init argc).agents.map (fun a => a.tinfo.thread_num) = List.range argc ∧
    (main_init argc).agents.length = argc ∧
    ((main_init argc).agents = [] ↔ argc = 0) ∧
    (∀ i, i < argc → (step (main_init argc) i 0).isSome = true) := by
  have hlen : (main_init argc).agents.length = argc := by
    simp [main_init, spawn, num_threads]
  refine ⟨?_, hlen, ?_, ?_⟩
  · simp only [main_init, spawn, num_threads, List.map_map]
    have : ((fun a => a.tinfo.thread_num) ∘ new_agent) = id := by
      funext k
      rfl
    rw [this, List.map_id]
  · rw [← List.length_eq_zero, hlen]
  · intro i hi
    have ha : (main_init argc).agents[i]? = some (new_agent i) := by
      simp only [main_init, spawn, num_threads]
      rw [List.getElem?_map, List.getElem?_range hi]
      rfl
    unfold step
    simp [ha, semStep, new_agent]

/-- C8: `time` is a whole number of milliseconds between 25 and 48: the value 49 that the
comments of the source and the claim name as the upper end is never produced; `rand()`
values 23 and 24 give 48 ms and 25 ms. -/
theorem sleepTime_never_49 :
    (∀ r, sleepTime r % 1000 = 0 ∧ 25 ≤ sleepTime r / 1000 ∧ sleepTime r / 1000 ≤ 48) ∧
    (∀ r, sleepTime r / 1000 ≠ 49) ∧ sleepTime 23 = 48000 ∧ sleepTime 24 = 25000 ∧
    (∀ d, 25 ≤ d → d ≤ 48 → sleepTime (d - 25) / 1000 = d) := by
  refine ⟨fun r => ?_, fun r => ?_, rfl, rfl, fun d h1 h2 => ?_⟩ <;>
    unfold sleepTime <;> omega

/-! ## Counters and time totals -/

theorem log_bounds (log : List Nat) (h : ∀ e ∈ log, ∃ r, e = sleepTime r) :
    log.sum = 1000 * sumMs log ∧ 25 * log.length ≤ sumMs log ∧ sumMs log ≤ 48 * log.length := by
  induction log with
  | nil => simp [sumMs]
  | cons e rest ih =>
    obtain ⟨r, rfl⟩ := h e (List.mem_cons_self _ _)
    obtain ⟨h1, h2, h3⟩ := ih (fun x hx => h x (List.mem_cons_of_mem _ hx))
    have hr : sleepTime r / 1000 = r % 24 + 25 := by
      unfold sleepTime
      omega
    have hr1 : sleepTime r = 1000 * (r % 24 + 25) := rfl
    have hs : sumMs (sleepTime r :: rest) = (r % 24 + 25) + sumMs rest := by
      simp [sumMs, hr]
    rw [hs, List.sum_cons, List.length_cons, h1, hr1]
    refine ⟨by ring, ?_, ?_⟩ <;> omega

theorem counted_timed (pc : PC) :
    thinkCounted pc = thinkTimed pc + pendingThink pc ∧
    eatCounted pc = eatTimed pc + pendingEat pc := by
  cases pc <;> exact ⟨rfl, rfl⟩

/-- C9, as stated, fails after one iteration: philosopher 0 is back at the top of its loop
with one completed cycle, `eat = 1` and `think = 1`, so `eat + think` is 2, not 1. -/
theorem cycle_accounting_counterexample :
    Reachable (main_init 5) oneCycle ∧
    (oneCycle.agents.map (fun a => (a.pc, a.cycles, a.tinfo.eat, a.tinfo.think)))[0]? =
      some (PC.thinkInc, 1, 1, 1) ∧
    (oneCycle.agents.map (fun a => decide (a.tinfo.eat + a.tinfo.think = (a.cycles : Int))))[0]?
      = some false :=
  ⟨oneCycle_reachable, by decide, by decide⟩

/-- C9, amended: after `k` completed iterations (`k + 1 < 2^31`, so that the `int` counters
have not wrapped) the think count is `k` plus one if `think++` of the running iteration has
been executed, and the eat count is `k` plus one if `eat++` has; at the top of the loop both
are `k` and their sum is `2 * k`. -/
theorem cycle_accounting_double (n : Nat) (s : State) (h : Reachable (main_init n) s) (i : Nat)
    (a : Agent) (ha : s.agents[i]? = some a) (k : Nat) (hk : a.cycles = k)
    (hlt : k + 1 < 2147483648) :
    a.tinfo.think = ((k + thinkCounted a.pc : Nat) : Int) ∧
    a.tinfo.eat = ((k + eatCounted a.pc : Nat) : Int) ∧
    (a.pc = PC.thinkInc →
      a.tinfo.think = (k : Int) ∧ a.tinfo.eat = (k : Int) ∧
      a.tinfo.eat + a.tinfo.think = 2 * (k : Int)) := by
  obtain ⟨-, -, -, hloc⟩ := inv_reachable n s h
  obtain ⟨-, ht, he, -⟩ := hloc i a ha
  have h1 : thinkCounted a.pc ≤ 1 := by cases a.pc <;> simp [thinkCounted]
  have h2 : eatCounted a.pc ≤ 1 := by cases a.pc <;> simp [eatCounted]
  rw [hk] at ht he
  rw [wrap32_id _ (by omega) (by omega)] at ht he
  refine ⟨ht, he, fun hp => ?_⟩
  rw [hp] at ht he
  simp only [thinkCounted, eatCounted, Nat.add_zero] at ht he
  refine ⟨ht, he, ?_⟩
  rw [ht, he]
  ring

/-- Witness for the amended C9: philosopher 0 after one whole iteration. -/
theorem cycle_accounting_double_witness :
    Reachable (main_init 5) oneCycle ∧
    ∃ a, oneCycle.agents[0]? = some a ∧ a.cycles = 1 ∧ a.pc = PC.thinkInc ∧
    (a.tinfo.think = ((1 + thinkCounted a.pc : Nat) : Int) ∧
    a.tinfo.eat = ((1 + eatCounted a.pc : Nat) : Int) ∧
    (a.pc = PC.thinkInc →
      a.tinfo.think = ((1 : Nat) : Int) ∧ a.tinfo.eat = ((1 : Nat) : Int) ∧
      a.tinfo.eat + a.tinfo.think = 2 * ((1 : Nat) : Int))) :=
  ⟨oneCycle_reachable, oneCycle.agents[0]?.get (by decide), by simp, by decide, by decide,
    cycle_accounting_double 5 oneCycle oneCycle_reachable 0 _ (by simp) 1 (by decide)
      (by decide)⟩

/-- C10, as stated, fails right after `think++` of the first iteration: philosopher 0 has
`think = 1` and `thinkingTime = 0`, so the reported total 0 is below `25 * think`. -/
theorem time_totals_counterexample :
    Reachable (main_init 5) afterThinkInc ∧
    (afterThinkInc.agents.map (fun a => (a.pc, a.tinfo.think, a.tinfo.thinkingTime)))[0]? =
      some (PC.thinkTime, 1, 0) ∧
    (afterThinkInc.agents.map
      (fun a => decide (25 * a.tinfo.think ≤ (reported a.tinfo).2)))[0]? = some false :=
  ⟨afterThinkInc_reachable, by decide, by decide⟩

/-- C10, amended: as long as the sums of the chosen sleeps fit in an `int`, `eatingTime` and
`thinkingTime` are multiples of 1000, the reported totals are the sums in milliseconds of the
sleeps chosen for the eat and think phases, and they lie between 25 and 49 times the number
of phases counted, not counting the phase whose sleep has not been added yet (the program
point between `think++` and `thinkingTime += time`, or `eat++` and `eatingTime += time`). -/
theorem time_totals (n : Nat) (s : State) (h : Reachable (main_init n) s) (i : Nat)
    (a : Agent) (ha : s.agents[i]? = some a) (hT : a.thinkLog.sum < 2147483648)
    (hE : a.eatLog.sum < 2147483648) :
    a.tinfo.eatingTime % 1000 = 0 ∧ a.tinfo.thinkingTime % 1000 = 0 ∧
    (reported a.tinfo).1 = (sumMs a.eatLog : Int) ∧
    (reported a.tinfo).2 = (sumMs a.thinkLog : Int) ∧
    25 * (a.tinfo.eat - (pendingEat a.pc : Int)) ≤ (reported a.tinfo).1 ∧
    (reported a.tinfo).1 ≤ 49 * (a.tinfo.eat - (pendingEat a.pc : Int)) ∧
    25 * (a.tinfo.think - (pendingThink a.pc : Int)) ≤ (reported a.tinfo).2 ∧
    (reported a.tinfo).2 ≤ 49 * (a.tinfo.think - (pendingThink a.pc : Int)) := by
  obtain ⟨-, -, -, hloc⟩ := inv_reachable n s h
  obtain ⟨-, ht, he, htl, hel, htt, het, hlt, hle⟩ := hloc i a ha
  obtain ⟨t1, t2, t3⟩ := log_bounds _ hlt
  obtain ⟨e1, e2, e3⟩ := log_bounds _ hle
  obtain ⟨c1, c2⟩ := counted_timed a.pc
  have hp1 : pendingThink a.pc ≤ 1 := by cases a.pc <;> simp [pendingThink]
  have hp2 : pendingEat a.pc ≤ 1 := by cases a.pc <;> simp [pendingEat]
  have hq1 : thinkTimed a.pc ≤ 1 := by cases a.pc <;> simp [thinkTimed]
  rw [wrap32_id _ (by omega) (by omega)] at ht he htt het
  have hrE : (reported a.tinfo).1 = (sumMs a.eatLog : Int) := by
    unfold reported
    simp only []
    rw [het, Int.tdiv_eq_ediv (by omega) (by omega)]
    omega
  have hrT : (reported a.tinfo).2 = (sumMs a.thinkLog : Int) := by
    unfold reported
    simp only []
    rw [htt, Int.tdiv_eq_ediv (by omega) (by omega)]
    omega
  rw [hrE, hrT, ht, he, htt, het]
  refine ⟨?_, ?_, rfl, rfl, ?_, ?_, ?_, ?_⟩ <;> omega

/-- Witness for the amended C10: philosopher 0 after one whole iteration, with a think sleep
of 48 ms and an eat sleep of 25 ms. -/
theorem time_totals_witness :
    Reachable (main_init 5) oneCycle ∧
    ∃ a, oneCycle.agents[0]? = some a ∧
    (a.thinkLog.sum < 2147483648 ∧ a.eatLog.sum < 2147483648) ∧
    (a.tinfo.think = 1 ∧ a.tinfo.eat = 1 ∧ reported a.tinfo = (25, 48)) ∧
    (a.tinfo.eatingTime % 1000 = 0 ∧ a.tinfo.thinkingTime % 1000 = 0 ∧
    (reported a.tinfo).1 = (sumMs a.eatLog : Int) ∧
    (reported a.tinfo).2 = (sumMs a.thinkLog : Int) ∧
    25 * (a.tinfo.eat - (pendingEat a.pc : Int)) ≤ (reported a.tinfo).1 ∧
    (reported a.tinfo).1 ≤ 49 * (a.tinfo.eat - (pendingEat a.pc : Int)) ∧
    25 * (a.tinfo.think - (pendingThink a.pc : Int)) ≤ (reported a.tinfo).2 ∧
    (reported a.tinfo).2 ≤ 49 * (a.tinfo.think - (pendingThink a.pc : Int))) :=
  ⟨oneCycle_reachable, oneCycle.agents[0]?.get (by decide), by simp,
    ⟨by decide, by decide⟩, ⟨by decide, by decide, by decide⟩,
    time_totals 5 oneCycle oneCycle_reachable 0 _ (by simp) (by decide) (by decide)⟩

end ThinkOrEat
